import Mathlib

/-!
Shallow embedding of the persisted-state layer of the noentropy file
organizer: the plan cache (src/storage/cache.rs), the undo ledger
(src/undo.rs) and the duplicate detector
(src/files/duplicate/duplicate_detector.rs).

Modelling conventions:
* Rust HashMap values are modelled as association lists; insert replaces
  the binding of an existing key in place and appends a fresh key at the
  end, remove deletes the unique binding of a key.  HashMap iteration
  order is unspecified in Rust, so any fact proved below about an
  iteration-order-dependent choice (tie-breaking of min_by_key) is stated
  so that it does not depend on the list order.
* The blake3 digest of a byte stream is modelled by the byte stream
  itself (as a list of characters): two equal streams give equal digests,
  and the concrete collision exhibited below is a collision of the
  streams, hence of the real digests as well.
* Clock reads (SystemTime::now) and filesystem probes (fs::metadata,
  File::open) are passed in as explicit parameters, so every operation
  is a pure function of the store, the probe oracle and the time.
* u64 arithmetic: timestamps are natural numbers; the wrapping
  subtraction performed by the release-mode Rust expression
  current_time - entry.timestamp is modelled explicitly by u64sub.
-/

/-- Metadata probe result for one file: size and mtime in epoch seconds
(models FileMetadata of src/models/metadata.rs). -/
structure FileMetadata where
  size : Nat
  modified : Nat
deriving DecidableEq

/-- One categorization line (models FileCategory of
src/models/organization.rs). -/
structure FileCategory where
  filename : String
  category : String
  sub_category : String
deriving DecidableEq

/-- The categorization plan stored by the cache (models OrganizationPlan
of src/models/organization.rs). -/
structure OrganizationPlan where
  files : List FileCategory
deriving DecidableEq

/-- One cache slot (models CacheEntry of src/models/metadata.rs); the
file_metadata HashMap is an association list. -/
structure CacheEntry where
  response : OrganizationPlan
  timestamp : Nat
  file_metadata : List (String × FileMetadata)
deriving DecidableEq

/-- Insert into an association list, replacing the first binding of the
key in place and appending when the key is absent (models
HashMap::insert). -/
def mapInsert {K V : Type} [DecidableEq K] (l : List (K × V)) (k : K) (v : V) :
    List (K × V) :=
  match l with
  | [] => [(k, v)]
  | p :: rest => if p.1 = k then (k, v) :: rest else p :: mapInsert rest k v

/-- Lookup in an association list (models HashMap::get). -/
def mapGet {K V : Type} [DecidableEq K] (l : List (K × V)) (k : K) : Option V :=
  match l with
  | [] => none
  | p :: rest => if p.1 = k then some p.2 else mapGet rest k

/-- Remove the first binding of a key from an association list (models
HashMap::remove). -/
def mapRemove {K V : Type} [DecidableEq K] (l : List (K × V)) (k : K) :
    List (K × V) :=
  match l with
  | [] => []
  | p :: rest => if p.1 = k then rest else p :: mapRemove rest k

/-- The plan cache (models Cache of src/storage/cache.rs); entries is the
HashMap from hex digest keys to entries, keys modelled as the hashed
character stream. -/
structure Cache where
  entries : List (List Char × CacheEntry)
  max_entries : Nat
deriving DecidableEq

/-- Byte-lexicographic comparison of character lists, mirroring the Ord
instance of Rust str (UTF-8 byte order coincides with code point
order). -/
def bytesLe : List Char → List Char → Bool
  | [], _ => true
  | _ :: _, [] => false
  | a :: as, b :: bs =>
    if a < b then true
    else if b < a then false
    else bytesLe as bs

/-- Rust String comparison used by the sort in generate_cache_key. -/
def strLe (a b : String) : Bool :=
  bytesLe a.data b.data

theorem bytesLe_total (xs ys : List Char) :
    bytesLe xs ys = true ∨ bytesLe ys xs = true := by
  induction xs generalizing ys with
  | nil => exact Or.inl rfl
  | cons a as ih =>
    cases ys with
    | nil => exact Or.inr rfl
    | cons b bs =>
      by_cases hab : a < b
      · left
        simp [bytesLe, hab]
      · by_cases hba : b < a
        · right
          simp [bytesLe, hba]
        · rcases ih bs with h | h
          · left
            simp [bytesLe, hab, hba, h]
          · right
            simp [bytesLe, hab, hba, h]

theorem bytesLe_trans {xs ys zs : List Char} (h₁ : bytesLe xs ys = true)
    (h₂ : bytesLe ys zs = true) : bytesLe xs zs = true := by
  induction xs generalizing ys zs with
  | nil => rfl
  | cons a as ih =>
    cases ys with
    | nil => simp [bytesLe] at h₁
    | cons b bs =>
      cases zs with
      | nil => simp [bytesLe] at h₂
      | cons c cs =>
        by_cases hab : a < b
        · by_cases hbc : b < c
          · simp [bytesLe, lt_trans hab hbc]
          · by_cases hcb : c < b
            · simp [bytesLe, hbc, hcb] at h₂
            · have hbc2 : b = c := le_antisymm (not_lt.mp hcb) (not_lt.mp hbc)
              simp [bytesLe, hbc2 ▸ hab]
        · by_cases hba : b < a
          · simp [bytesLe, hab, hba] at h₁
          · have hab2 : a = b := le_antisymm (not_lt.mp hba) (not_lt.mp hab)
            subst hab2
            by_cases hbc : a < c
            · simp [bytesLe, hbc]
            · by_cases hcb : c < a
              · simp [bytesLe, hbc, hcb] at h₂
              · simp [bytesLe, hab, hba] at h₁
                simp [bytesLe, hbc, hcb] at h₂
                simp [bytesLe, hbc, hcb, ih h₁ h₂]

theorem bytesLe_antisymm {xs ys : List Char} (h₁ : bytesLe xs ys = true)
    (h₂ : bytesLe ys xs = true) : xs = ys := by
  induction xs generalizing ys with
  | nil =>
    cases ys with
    | nil => rfl
    | cons b bs => simp [bytesLe] at h₂
  | cons a as ih =>
    cases ys with
    | nil => simp [bytesLe] at h₁
    | cons b bs =>
      by_cases hab : a < b
      · simp [bytesLe, hab, not_lt_of_lt hab] at h₂
      · by_cases hba : b < a
        · simp [bytesLe, hab, hba] at h₁
        · have hab2 : a = b := le_antisymm (not_lt.mp hba) (not_lt.mp hab)
          subst hab2
          simp [bytesLe, hab, hba] at h₁ h₂
          rw [ih h₁ h₂]

instance : IsTotal String (fun a b => strLe a b = true) :=
  ⟨fun a b => bytesLe_total a.data b.data⟩

instance : IsTrans String (fun a b => strLe a b = true) :=
  ⟨fun _ _ _ h₁ h₂ => bytesLe_trans h₁ h₂⟩

instance : IsAntisymm String (fun a b => strLe a b = true) :=
  ⟨fun a b h₁ h₂ => by
    cases a
    cases b
    exact congrArg String.mk (bytesLe_antisymm h₁ h₂)⟩

/-- Key derivation of Cache::generate_cache_key: sort the filenames,
then feed each filename followed by the separator byte to the hasher.
The key is modelled as the hashed stream itself. -/
def generate_cache_key (filenames : List String) : List Char :=
  let sorted_filenames := filenames.insertionSort (fun a b => strLe a b = true)
  (sorted_filenames.map (fun filename => filename.data ++ ['|'])).flatten

/-- Result of Cache::check_cache: the plan on a hit, plus the metadata
probed once for all files (returned for reuse by the store path). -/
structure CacheCheckResult where
  cached_response : Option OrganizationPlan
  file_metadata : List (String × FileMetadata)

/-- Metadata collection phase of Cache::check_cache: probe every
filename under base_path and collect the successful probes into a map
(filter_map followed by collect in the source); the probe oracle stands
for fs::metadata under base_path. -/
def collectMetadata (probe : String → Option FileMetadata)
    (filenames : List String) : List (String × FileMetadata) :=
  filenames.foldl
    (fun acc filename =>
      match probe filename with
      | some m => mapInsert acc filename m
      | none => acc) []

/-- Lookup/validation phase of Cache::check_cache: find the entry under
the derived key and return its plan only when every filename in the list
has a probed metadata equal to the metadata recorded in the entry. -/
def Cache.check_cache (c : Cache) (filenames : List String)
    (probe : String → Option FileMetadata) : CacheCheckResult :=
  let file_metadata := collectMetadata probe filenames
  let cache_key := generate_cache_key filenames
  let cached_response := (mapGet c.entries cache_key).bind (fun entry =>
    let all_unchanged := filenames.all (fun filename =>
      match mapGet file_metadata filename, mapGet entry.file_metadata filename with
      | some current, some cached => current == cached
      | _, _ => false)
    if all_unchanged then some entry.response else none)
  ⟨cached_response, file_metadata⟩

theorem mapGet_mapInsert_self {K V : Type} [DecidableEq K]
    (l : List (K × V)) (k : K) (v : V) :
    mapGet (mapInsert l k v) k = some v := by
  induction l with
  | nil => simp [mapInsert, mapGet]
  | cons p rest ih =>
    by_cases h : p.1 = k
    · simp [mapInsert, mapGet, h]
    · simp [mapInsert, mapGet, h, ih]

theorem mapGet_mapInsert_ne {K V : Type} [DecidableEq K]
    (l : List (K × V)) (k k₂ : K) (v : V) (hne : k ≠ k₂) :
    mapGet (mapInsert l k v) k₂ = mapGet l k₂ := by
  induction l with
  | nil => simp [mapInsert, mapGet, hne]
  | cons p rest ih =>
    by_cases h : p.1 = k
    · simp [mapInsert, mapGet, h, hne]
    · simp only [mapInsert, if_neg h]
      by_cases h₂ : p.1 = k₂
      · simp [mapGet, h₂]
      · simp [mapGet, h₂, ih]

theorem collectMetadata_foldl_get (probe : String → Option FileMetadata)
    (filenames : List String) (acc : List (String × FileMetadata)) (f : String) :
    mapGet (filenames.foldl
      (fun acc filename =>
        match probe filename with
        | some m => mapInsert acc filename m
        | none => acc) acc) f =
      if f ∈ filenames ∧ (probe f).isSome then probe f else mapGet acc f := by
  induction filenames generalizing acc with
  | nil => simp
  | cons g gs ih =>
    simp only [List.foldl_cons]
    rw [ih]
    by_cases hmem : f ∈ gs ∧ (probe f).isSome
    · rw [if_pos hmem, if_pos ⟨List.mem_cons_of_mem g hmem.1, hmem.2⟩]
    · rw [if_neg hmem]
      by_cases hgf : f = g
      · subst hgf
        cases hp : probe f with
        | none => simp
        | some m => simp [mapGet_mapInsert_self]
      · have hcond : ¬(f ∈ g :: gs ∧ (probe f).isSome) := by
          rintro ⟨hin, hsome⟩
          rcases List.mem_cons.mp hin with h | h
          · exact hgf h
          · exact hmem ⟨h, hsome⟩
        rw [if_neg hcond]
        cases hp : probe g with
        | none => rfl
        | some m => exact mapGet_mapInsert_ne acc g f m (fun h => hgf h.symm)

theorem collectMetadata_get (probe : String → Option FileMetadata)
    (filenames : List String) (f : String) (hf : f ∈ filenames) :
    mapGet (collectMetadata probe filenames) f = probe f := by
  unfold collectMetadata
  rw [collectMetadata_foldl_get]
  cases hp : probe f with
  | none => simp [mapGet]
  | some m => simp [hf]

/-- C2. Cache::check_cache returns a plan exactly when an entry exists
under the derived key and every filename in the list probes
successfully to a metadata equal to the one recorded in the entry; the
returned plan is the stored plan.  Absent entry, failed probe, missing
recorded metadata or differing metadata all give None. -/
theorem check_cache_correct (c : Cache) (filenames : List String)
    (probe : String → Option FileMetadata) (p : OrganizationPlan) :
    (c.check_cache filenames probe).cached_response = some p ↔
      ∃ e, mapGet c.entries (generate_cache_key filenames) = some e ∧
        p = e.response ∧
        ∀ f ∈ filenames, ∃ m, probe f = some m ∧
          mapGet e.file_metadata f = some m := by
  have hrw : (c.check_cache filenames probe).cached_response =
      (mapGet c.entries (generate_cache_key filenames)).bind (fun entry =>
        if (filenames.all fun filename =>
            match mapGet (collectMetadata probe filenames) filename,
              mapGet entry.file_metadata filename with
            | some current, some cached => current == cached
            | _, _ => false) then some entry.response else none) := rfl
  rw [hrw]
  cases hent : mapGet c.entries (generate_cache_key filenames) with
  | none => simp
  | some entry =>
    show (if (filenames.all fun filename =>
        match mapGet (collectMetadata probe filenames) filename,
          mapGet entry.file_metadata filename with
        | some current, some cached => current == cached
        | _, _ => false) then some entry.response else none) = some p ↔ _
    by_cases hall : (filenames.all fun filename =>
        match mapGet (collectMetadata probe filenames) filename,
          mapGet entry.file_metadata filename with
        | some current, some cached => current == cached
        | _, _ => false) = true
    · rw [if_pos hall]
      constructor
      · intro h
        refine ⟨entry, rfl, (Option.some.inj h).symm, ?_⟩
        intro f hf
        have hx := List.all_eq_true.mp hall f hf
        simp only at hx
        rw [collectMetadata_get probe filenames f hf] at hx
        cases hp : probe f with
        | none =>
          rw [hp] at hx
          cases hc : mapGet entry.file_metadata f <;> rw [hc] at hx <;>
            simp at hx
        | some m =>
          rw [hp] at hx
          cases hc : mapGet entry.file_metadata f with
          | none => rw [hc] at hx; simp at hx
          | some m₂ =>
            rw [hc] at hx
            have hm : m = m₂ := by simpa using hx
            exact ⟨m, rfl, by rw [hm]⟩
      · rintro ⟨e, he, hpe, _⟩
        cases Option.some.inj he
        rw [hpe]
    · rw [if_neg hall]
      constructor
      · intro h
        cases h
      · rintro ⟨e, he, hpe, hfm⟩
        cases Option.some.inj he
        exfalso
        apply hall
        apply List.all_eq_true.mpr
        intro f hf
        rcases hfm f hf with ⟨m, hm₁, hm₂⟩
        rw [collectMetadata_get probe filenames f hf, hm₁, hm₂]
        exact beq_self_eq_true m

/-- C2, witness: a one-file cache hit at a concrete state. -/
theorem check_cache_correct_witness :
    ((Cache.mk
        [(generate_cache_key ["f1.txt"],
          ⟨⟨[⟨"f1.txt", "Documents", "Text"⟩]⟩, 7,
            [("f1.txt", ⟨1, 2⟩)]⟩)] 1000).check_cache ["f1.txt"]
        (fun f => if f = "f1.txt" then some ⟨1, 2⟩ else none)).cached_response =
        some ⟨[⟨"f1.txt", "Documents", "Text"⟩]⟩ ↔
      ∃ e, mapGet (Cache.mk
        [(generate_cache_key ["f1.txt"],
          ⟨⟨[⟨"f1.txt", "Documents", "Text"⟩]⟩, 7,
            [("f1.txt", ⟨1, 2⟩)]⟩)] 1000).entries
          (generate_cache_key ["f1.txt"]) = some e ∧
        (⟨[⟨"f1.txt", "Documents", "Text"⟩]⟩ : OrganizationPlan) = e.response ∧
        ∀ f ∈ ["f1.txt"], ∃ m,
          (if f = "f1.txt" then some ⟨1, 2⟩ else none) = some m ∧
          mapGet e.file_metadata f = some m :=
  check_cache_correct _ ["f1.txt"] _ _

/-- C10. An entry stored under the key of the empty filename list is
returned by Cache::check_cache on the empty list for every probe
oracle: the per-file validation is vacuous, so no filesystem state can
invalidate it. -/
theorem check_cache_empty_filenames (c : Cache) (e : CacheEntry)
    (probe : String → Option FileMetadata)
    (h : mapGet c.entries (generate_cache_key []) = some e) :
    (c.check_cache [] probe).cached_response = some e.response := by
  simp [Cache.check_cache, h]

/-- C10, witness: a concrete empty-list entry is returned even though
every probe fails. -/
theorem check_cache_empty_filenames_witness :
    ((Cache.mk [(generate_cache_key [], ⟨⟨[]⟩, 3, []⟩)] 1000).check_cache []
        (fun _ => none)).cached_response = some (⟨[]⟩ : OrganizationPlan) :=
  check_cache_empty_filenames _ ⟨⟨[]⟩, 3, []⟩ _ rfl

/-- C1, counterexample. The two filename lists below are distinct as
multisets, yet the sorted streams fed to the hasher coincide because the
separator byte also occurs inside a filename, so generate_cache_key
collides on them. -/
theorem generate_cache_key_collision :
    generate_cache_key ["a|", "b"] = generate_cache_key ["a", "|b"] ∧
      ¬ List.Perm ["a|", "b"] ["a", "|b"] := by
  constructor
  · decide
  · decide

/-- C1. Key derivation is invariant under permutation of the filename
list: lists that are equal as multisets get equal cache keys.  (The
converse direction of the original claim fails: see the collision
above.) -/
theorem generate_cache_key_perm (l₁ l₂ : List String) (h : List.Perm l₁ l₂) :
    generate_cache_key l₁ = generate_cache_key l₂ := by
  have hs : l₁.insertionSort (fun a b => strLe a b = true) =
      l₂.insertionSort (fun a b => strLe a b = true) := by
    apply List.eq_of_perm_of_sorted
      (r := fun a b : String => strLe a b = true)
    · exact ((List.perm_insertionSort _ l₁).trans h).trans
        (List.perm_insertionSort _ l₂).symm
    · exact List.sorted_insertionSort _ _
    · exact List.sorted_insertionSort _ _
  simp only [generate_cache_key, hs]

/-- C1, witness: a rotation of a three-element filename list keys
identically. -/
theorem generate_cache_key_perm_witness :
    generate_cache_key ["a.txt", "b.txt", "c.txt"] =
      generate_cache_key ["b.txt", "c.txt", "a.txt"] :=
  generate_cache_key_perm ["a.txt", "b.txt", "c.txt"]
    ["b.txt", "c.txt", "a.txt"] (by decide)

/-- Helper for the fold of Rust Iterator::min_by_key: the best element
so far is replaced only by a strictly smaller key, so the first minimal
element wins. -/
def rustMinByAux {α : Type} (key : α → Nat) (best : α) : List α → α
  | [] => best
  | x :: xs => rustMinByAux key (if key x < key best then x else best) xs

/-- Rust Iterator::min_by_key on a list: the first element with minimal
key, or none on an empty list. -/
def rustMinBy {α : Type} (key : α → Nat) : List α → Option α
  | [] => none
  | x :: xs => some (rustMinByAux key x xs)

/-- Cache::evict_oldest: find the entry with the minimal timestamp and
remove it by key; a no-op on an empty map. -/
def Cache.evict_oldest (entries : List (List Char × CacheEntry)) :
    List (List Char × CacheEntry) :=
  match rustMinBy (fun p => p.2.timestamp) entries with
  | some oldest => mapRemove entries oldest.1
  | none => entries

/-- Cache::cache_response_with_metadata: build the entry with the store
time as timestamp, insert or replace it under the derived key, then run
one eviction step when the map is over capacity. -/
def Cache.cache_response_with_metadata (c : Cache) (filenames : List String)
    (response : OrganizationPlan)
    (file_metadata : List (String × FileMetadata)) (now : Nat) : Cache :=
  let cache_key := generate_cache_key filenames
  let entry : CacheEntry := ⟨response, now, file_metadata⟩
  let entries2 := mapInsert c.entries cache_key entry
  if entries2.length > c.max_entries then
    ⟨Cache.evict_oldest entries2, c.max_entries⟩
  else
    ⟨entries2, c.max_entries⟩

/-- Shared shape of Cache::compact_cache and UndoLog::compact_log: keep
evicting while over capacity.  The fuel argument is instantiated with
the starting length, which suffices because each eviction step on a
non-empty store removes exactly one element (proved below); the Rust
loop and this loop therefore take the same steps. -/
def evictLoop {α : Type} (evict : List α → List α) (max_entries : Nat) :
    Nat → List α → List α
  | 0, es => es
  | n + 1, es =>
    if es.length > max_entries then evictLoop evict max_entries n (evict es)
    else es

/-- Cache::compact_cache: evict the oldest entry while over capacity. -/
def Cache.compact_cache (entries : List (List Char × CacheEntry))
    (max_entries : Nat) : List (List Char × CacheEntry) :=
  evictLoop Cache.evict_oldest max_entries entries.length entries

/-- Wrapping u64 subtraction, the release-mode semantics of the Rust
expression current_time - entry.timestamp. -/
def u64sub (a b : Nat) : Nat :=
  (2 ^ 64 + a % 2 ^ 64 - b % 2 ^ 64) % 2 ^ 64

/-- Cache::cleanup_old_entries: retain the entries younger than the age
bound (by wrapping subtraction), then compact when over capacity. -/
def Cache.cleanup_old_entries (c : Cache) (current_time max_age_seconds : Nat) :
    Cache :=
  let retained := c.entries.filter
    (fun p => u64sub current_time p.2.timestamp < max_age_seconds)
  if retained.length > c.max_entries then
    ⟨Cache.compact_cache retained c.max_entries, c.max_entries⟩
  else
    ⟨retained, c.max_entries⟩

theorem mapInsert_length_le {K V : Type} [DecidableEq K]
    (l : List (K × V)) (k : K) (v : V) :
    (mapInsert l k v).length ≤ l.length + 1 := by
  induction l with
  | nil => simp [mapInsert]
  | cons p rest ih =>
    by_cases h : p.1 = k
    · simp [mapInsert, h]
    · simp only [mapInsert, if_neg h, List.length_cons]
      omega

theorem rustMinByAux_mem {α : Type} (key : α → Nat) (best : α) (l : List α) :
    rustMinByAux key best l ∈ best :: l := by
  induction l generalizing best with
  | nil => simp [rustMinByAux]
  | cons x xs ih =>
    rw [show rustMinByAux key best (x :: xs) =
      rustMinByAux key (if key x < key best then x else best) xs from rfl]
    by_cases hlt : key x < key best
    · rw [if_pos hlt]
      exact List.mem_cons_of_mem best (ih x)
    · rw [if_neg hlt]
      rcases List.mem_cons.mp (ih best) with h₂ | h₂
      · rw [h₂]
        exact List.mem_cons_self _ _
      · exact List.mem_cons_of_mem best (List.mem_cons_of_mem x h₂)

theorem rustMinBy_mem {α : Type} (key : α → Nat) (l : List α) (b : α)
    (h : rustMinBy key l = some b) : b ∈ l := by
  cases l with
  | nil => cases h
  | cons x xs =>
    have hb : b = rustMinByAux key x xs := (Option.some.inj h).symm
    exact hb ▸ rustMinByAux_mem key x xs

theorem mapRemove_length_of_mem {K V : Type} [DecidableEq K]
    (l : List (K × V)) (k : K) (v : V) (h : (k, v) ∈ l) :
    (mapRemove l k).length + 1 = l.length := by
  induction l with
  | nil => cases h
  | cons p rest ih =>
    by_cases hp : p.1 = k
    · simp [mapRemove, hp]
    · have hmem : (k, v) ∈ rest := by
        rcases List.mem_cons.mp h with h₂ | h₂
        · exact absurd (congrArg Prod.fst h₂.symm) hp
        · exact h₂
      simp only [mapRemove, if_neg hp, List.length_cons]
      rw [ih hmem]

theorem cache_evict_oldest_length (entries : List (List Char × CacheEntry))
    (h : entries ≠ []) :
    (Cache.evict_oldest entries).length + 1 = entries.length := by
  unfold Cache.evict_oldest
  cases entries with
  | nil => exact absurd rfl h
  | cons x xs =>
    cases hmin : rustMinBy (fun p => p.2.timestamp) (x :: xs) with
    | none => cases hmin
    | some oldest =>
      have hmem := rustMinBy_mem _ _ _ hmin
      exact mapRemove_length_of_mem (x :: xs) oldest.1 oldest.2
        (by rcases oldest with ⟨k, v⟩; exact hmem)

/-- C3. Amended bound preservation: the store operation does a single
eviction step after inserting, so it keeps entries.len() within
max_entries whenever the bound held before the call; a state already
over max_entries + 1 is not brought back within the bound (see the
counterexample). -/
theorem cache_store_preserves_bound (c : Cache) (filenames : List String)
    (response : OrganizationPlan)
    (file_metadata : List (String × FileMetadata)) (now : Nat)
    (h : c.entries.length ≤ c.max_entries) :
    (c.cache_response_with_metadata filenames response file_metadata now).entries.length ≤
      c.max_entries := by
  have hrw : c.cache_response_with_metadata filenames response file_metadata now =
      (if (mapInsert c.entries (generate_cache_key filenames)
            ⟨response, now, file_metadata⟩).length > c.max_entries then
        (⟨Cache.evict_oldest (mapInsert c.entries (generate_cache_key filenames)
            ⟨response, now, file_metadata⟩), c.max_entries⟩ : Cache)
      else
        ⟨mapInsert c.entries (generate_cache_key filenames)
            ⟨response, now, file_metadata⟩, c.max_entries⟩) := rfl
  rw [hrw]
  have hlen := mapInsert_length_le c.entries (generate_cache_key filenames)
    (⟨response, now, file_metadata⟩ : CacheEntry)
  by_cases hgt : (mapInsert c.entries (generate_cache_key filenames)
      ⟨response, now, file_metadata⟩).length > c.max_entries
  · rw [if_pos hgt]
    have hne : mapInsert c.entries (generate_cache_key filenames)
        (⟨response, now, file_metadata⟩ : CacheEntry) ≠ [] := by
      intro hnil
      rw [hnil] at hgt
      simp at hgt
    have hev := cache_evict_oldest_length _ hne
    simp only
    omega
  · rw [if_neg hgt]
    simp only
    omega

/-- C3, witness: storing into a full-but-not-over cache with capacity
one keeps exactly one entry. -/
theorem cache_store_preserves_bound_witness :
    ((Cache.mk [(['a'], ⟨⟨[]⟩, 1, []⟩)] 1).cache_response_with_metadata
        ["x"] ⟨[]⟩ [] 4).entries.length ≤ 1 :=
  cache_store_preserves_bound (Cache.mk [(['a'], ⟨⟨[]⟩, 1, []⟩)] 1)
    ["x"] ⟨[]⟩ [] 4 (by decide)

/-- C3, counterexample. A cache whose loaded state already has three
entries with capacity one is still over the bound after a store: the
store path evicts exactly once instead of looping, leaving three
entries. -/
theorem cache_store_bound_counterexample :
    ¬ ((Cache.mk [(['a'], ⟨⟨[]⟩, 1, []⟩), (['b'], ⟨⟨[]⟩, 2, []⟩),
          (['c'], ⟨⟨[]⟩, 3, []⟩)] 1).cache_response_with_metadata
        ["x"] ⟨[]⟩ [] 4).entries.length ≤ 1 := by
  decide

/-- Status of a recorded move (models MoveStatus of src/undo.rs). -/
inductive MoveStatus where
  | Completed
  | Undone
  | Failed
deriving DecidableEq

/-- One ledger record (models FileMoveRecord of src/undo.rs); paths are
modelled as strings, only their equality is used. -/
structure FileMoveRecord where
  source_path : String
  destination_path : String
  timestamp : Nat
  status : MoveStatus
deriving DecidableEq

/-- The undo ledger (models UndoLog of src/undo.rs). -/
structure UndoLog where
  entries : List FileMoveRecord
  max_entries : Nat
deriving DecidableEq

/-- UndoLog::evict_oldest: remove the Undone record with the minimal
timestamp; when no Undone record exists, remove the record with the
minimal timestamp regardless of status.  The Vec indices of the Rust
code are modelled with List.enum and List.eraseIdx. -/
def UndoLog.evict_oldest (entries : List FileMoveRecord) :
    List FileMoveRecord :=
  match rustMinBy (fun p => p.2.timestamp)
      (entries.enum.filter (fun p => p.2.status == MoveStatus.Undone)) with
  | some oldest => entries.eraseIdx oldest.1
  | none =>
    match rustMinBy (fun p => p.2.timestamp) entries.enum with
    | some oldest => entries.eraseIdx oldest.1
    | none => entries

/-- UndoLog::record_move: append a Completed record stamped with the
current time, then run one eviction step when over capacity. -/
def UndoLog.record_move (log : UndoLog)
    (source_path destination_path : String) (now : Nat) : UndoLog :=
  let record : FileMoveRecord :=
    ⟨source_path, destination_path, now, MoveStatus.Completed⟩
  let entries2 := log.entries ++ [record]
  if entries2.length > log.max_entries then
    ⟨UndoLog.evict_oldest entries2, log.max_entries⟩
  else
    ⟨entries2, log.max_entries⟩

/-- UndoLog::record_failed_move: append a Failed record stamped with the
current time, then run one eviction step when over capacity. -/
def UndoLog.record_failed_move (log : UndoLog)
    (source_path destination_path : String) (now : Nat) : UndoLog :=
  let record : FileMoveRecord :=
    ⟨source_path, destination_path, now, MoveStatus.Failed⟩
  let entries2 := log.entries ++ [record]
  if entries2.length > log.max_entries then
    ⟨UndoLog.evict_oldest entries2, log.max_entries⟩
  else
    ⟨entries2, log.max_entries⟩

/-- UndoLog::get_completed_moves: the Completed records in insertion
order (a read-only query). -/
def UndoLog.get_completed_moves (log : UndoLog) : List FileMoveRecord :=
  log.entries.filter (fun e => e.status == MoveStatus.Completed)

/-- Loop body of UndoLog::mark_as_undone: walk the records and flip the
first Completed record whose destination_path matches, then break. -/
def markAsUndoneList : List FileMoveRecord → String → List FileMoveRecord
  | [], _ => []
  | e :: rest, path =>
    if e.status == MoveStatus.Completed && e.destination_path == path then
      { e with status := MoveStatus.Undone } :: rest
    else
      e :: markAsUndoneList rest path

/-- UndoLog::mark_as_undone on the whole ledger. -/
def UndoLog.mark_as_undone (log : UndoLog) (path : String) : UndoLog :=
  ⟨markAsUndoneList log.entries path, log.max_entries⟩

/-- UndoLog::compact_log: evict while over capacity. -/
def UndoLog.compact_log (entries : List FileMoveRecord) (max_entries : Nat) :
    List FileMoveRecord :=
  evictLoop UndoLog.evict_oldest max_entries entries.length entries

/-- UndoLog::cleanup_old_entries: retain the records that are younger
than the age bound (by wrapping subtraction) or have Completed status,
then compact when over capacity. -/
def UndoLog.cleanup_old_entries (log : UndoLog)
    (current_time max_age_seconds : Nat) : UndoLog :=
  let retained := log.entries.filter (fun e =>
    u64sub current_time e.timestamp < max_age_seconds ||
      e.status == MoveStatus.Completed)
  if retained.length > log.max_entries then
    ⟨UndoLog.compact_log retained log.max_entries, log.max_entries⟩
  else
    ⟨retained, log.max_entries⟩

theorem rustMinByAux_le {α : Type} (key : α → Nat) (best : α) (l : List α) :
    key (rustMinByAux key best l) ≤ key best ∧
      ∀ x ∈ l, key (rustMinByAux key best l) ≤ key x := by
  induction l generalizing best with
  | nil => exact ⟨le_refl _, by intro x hx; cases hx⟩
  | cons x xs ih =>
    rw [show rustMinByAux key best (x :: xs) =
      rustMinByAux key (if key x < key best then x else best) xs from rfl]
    by_cases hlt : key x < key best
    · rw [if_pos hlt]
      obtain ⟨h₁, h₂⟩ := ih x
      refine ⟨le_trans h₁ (le_of_lt hlt), ?_⟩
      intro y hy
      rcases List.mem_cons.mp hy with hy₂ | hy₂
      · rw [hy₂]
        exact h₁
      · exact h₂ y hy₂
    · rw [if_neg hlt]
      obtain ⟨h₁, h₂⟩ := ih best
      refine ⟨h₁, ?_⟩
      intro y hy
      rcases List.mem_cons.mp hy with hy₂ | hy₂
      · rw [hy₂]
        exact le_trans h₁ (not_lt.mp hlt)
      · exact h₂ y hy₂

theorem rustMinBy_le {α : Type} (key : α → Nat) (l : List α) (b : α)
    (h : rustMinBy key l = some b) : ∀ x ∈ l, key b ≤ key x := by
  cases l with
  | nil => cases h
  | cons x xs =>
    have hb : b = rustMinByAux key x xs := (Option.some.inj h).symm
    obtain ⟨h₁, h₂⟩ := rustMinByAux_le key x xs
    intro y hy
    rcases List.mem_cons.mp hy with hy₂ | hy₂
    · rw [hy₂, hb]
      exact h₁
    · rw [hb]
      exact h₂ y hy₂

theorem rustMinBy_none {α : Type} (key : α → Nat) (l : List α)
    (h : rustMinBy key l = none) : l = [] := by
  cases l with
  | nil => rfl
  | cons x xs => cases h

theorem evictLoop_sublist {α : Type} (evict : List α → List α)
    (hevict : ∀ es, (evict es).Sublist es) (max_entries : Nat) :
    ∀ n es, (evictLoop evict max_entries n es).Sublist es := by
  intro n
  induction n with
  | zero => exact fun es => List.Sublist.refl es
  | succ n ih =>
    intro es
    rw [show evictLoop evict max_entries (n + 1) es =
      (if es.length > max_entries then evictLoop evict max_entries n (evict es)
       else es) from rfl]
    by_cases hgt : es.length > max_entries
    · rw [if_pos hgt]
      exact (ih (evict es)).trans (hevict es)
    · rw [if_neg hgt]

theorem undolog_evict_oldest_sublist (entries : List FileMoveRecord) :
    (UndoLog.evict_oldest entries).Sublist entries := by
  unfold UndoLog.evict_oldest
  cases rustMinBy (fun p => p.2.timestamp)
      (entries.enum.filter (fun p => p.2.status == MoveStatus.Undone)) with
  | some oldest => exact List.eraseIdx_sublist entries oldest.1
  | none =>
    cases rustMinBy (fun p => p.2.timestamp) entries.enum with
    | some oldest => exact List.eraseIdx_sublist entries oldest.1
    | none => exact List.Sublist.refl entries

theorem u64sub_of_le (a b : Nat) (hb : b ≤ a) (ha : a < 2 ^ 64) :
    u64sub a b = a - b := by
  unfold u64sub
  have hb2 : b < 2 ^ 64 := lt_of_le_of_lt hb ha
  rw [Nat.mod_eq_of_lt ha, Nat.mod_eq_of_lt hb2]
  have h₁ : 2 ^ 64 + a - b = 2 ^ 64 + (a - b) := by omega
  rw [h₁, Nat.add_mod_left]
  exact Nat.mod_eq_of_lt (by omega)

/-- C5. One eviction step on a non-empty ledger removes exactly one
record, at an index holding an Undone record of minimal timestamp among
the Undone records when any exists, and otherwise a record of minimal
timestamp among all records. -/
theorem undolog_evict_oldest_spec (entries : List FileMoveRecord)
    (h : entries ≠ []) :
    (UndoLog.evict_oldest entries).length + 1 = entries.length ∧
    ∃ i, ∃ hi : i < entries.length,
      UndoLog.evict_oldest entries = entries.eraseIdx i ∧
      ((∃ e ∈ entries, e.status = MoveStatus.Undone) →
        (entries.get ⟨i, hi⟩).status = MoveStatus.Undone ∧
        ∀ e ∈ entries, e.status = MoveStatus.Undone →
          (entries.get ⟨i, hi⟩).timestamp ≤ e.timestamp) ∧
      ((¬ ∃ e ∈ entries, e.status = MoveStatus.Undone) →
        ∀ e ∈ entries, (entries.get ⟨i, hi⟩).timestamp ≤ e.timestamp) := by
  have hrw : UndoLog.evict_oldest entries =
      match rustMinBy (fun p => p.2.timestamp)
          (entries.enum.filter (fun p => p.2.status == MoveStatus.Undone)) with
      | some oldest => entries.eraseIdx oldest.1
      | none =>
        match rustMinBy (fun p => p.2.timestamp) entries.enum with
        | some oldest => entries.eraseIdx oldest.1
        | none => entries := rfl
  rw [hrw]
  cases hmin : rustMinBy (fun p => p.2.timestamp)
      (entries.enum.filter (fun p => p.2.status == MoveStatus.Undone)) with
  | some oldest =>
    have hmemF := rustMinBy_mem _ _ _ hmin
    have hminle := rustMinBy_le _ _ _ hmin
    obtain ⟨hmemE, hstat⟩ := List.mem_filter.mp hmemF
    have hget : entries.get? oldest.1 = some oldest.2 :=
      List.mem_enum_iff_get?.mp hmemE
    obtain ⟨hi, hgeti⟩ := List.get?_eq_some.mp hget
    refine ⟨List.length_eraseIdx_add_one hi, oldest.1, hi, rfl, ?_, ?_⟩
    · intro _
      constructor
      · rw [hgeti]
        exact beq_iff_eq.mp hstat
      · intro e he hestat
        obtain ⟨n, hn⟩ := List.mem_iff_get.mp he
        have henum : ((n : Nat), e) ∈ entries.enum :=
          List.mem_enum_iff_get?.mpr (List.get?_eq_some.mpr ⟨n.2, hn⟩)
        have hinF : ((n : Nat), e) ∈ entries.enum.filter
            (fun p => p.2.status == MoveStatus.Undone) :=
          List.mem_filter.mpr ⟨henum, by simp [hestat]⟩
        have hle := hminle _ hinF
        rw [hgeti]
        exact hle
    · intro hnone
      exfalso
      apply hnone
      refine ⟨oldest.2, List.mem_iff_get.mpr ⟨⟨oldest.1, hi⟩, hgeti⟩, ?_⟩
      exact beq_iff_eq.mp hstat
  | none =>
    have hFnil : entries.enum.filter (fun p => p.2.status == MoveStatus.Undone) = [] :=
      rustMinBy_none _ _ hmin
    have hnoundone : ¬ ∃ e ∈ entries, e.status = MoveStatus.Undone := by
      rintro ⟨e, he, hestat⟩
      obtain ⟨n, hn⟩ := List.mem_iff_get.mp he
      have henum : ((n : Nat), e) ∈ entries.enum :=
        List.mem_enum_iff_get?.mpr (List.get?_eq_some.mpr ⟨n.2, hn⟩)
      have hinF : ((n : Nat), e) ∈ entries.enum.filter
          (fun p => p.2.status == MoveStatus.Undone) :=
        List.mem_filter.mpr ⟨henum, by simp [hestat]⟩
      rw [hFnil] at hinF
      cases hinF
    cases hmin2 : rustMinBy (fun p => p.2.timestamp) entries.enum with
    | none =>
      exfalso
      have henil := rustMinBy_none _ _ hmin2
      have hlen := congrArg List.length henil
      rw [List.enum_length] at hlen
      exact h (List.length_eq_zero.mp hlen)
    | some oldest =>
      have hmemE := rustMinBy_mem _ _ _ hmin2
      have hminle := rustMinBy_le _ _ _ hmin2
      have hget : entries.get? oldest.1 = some oldest.2 :=
        List.mem_enum_iff_get?.mp hmemE
      obtain ⟨hi, hgeti⟩ := List.get?_eq_some.mp hget
      refine ⟨List.length_eraseIdx_add_one hi, oldest.1, hi, rfl, ?_, ?_⟩
      · intro hex
        exact absurd hex hnoundone
      · intro _ e he
        obtain ⟨n, hn⟩ := List.mem_iff_get.mp he
        have henum : ((n : Nat), e) ∈ entries.enum :=
          List.mem_enum_iff_get?.mpr (List.get?_eq_some.mpr ⟨n.2, hn⟩)
        have hle := hminle _ henum
        rw [hgeti]
        exact hle

/-- C5, witness: evicting from a concrete two-record ledger with one
Undone record. -/
theorem undolog_evict_oldest_spec_witness :
    (UndoLog.evict_oldest [⟨"s1", "d1", 5, MoveStatus.Completed⟩,
        ⟨"s2", "d2", 9, MoveStatus.Undone⟩]).length + 1 =
      ([⟨"s1", "d1", 5, MoveStatus.Completed⟩,
        ⟨"s2", "d2", 9, MoveStatus.Undone⟩] : List FileMoveRecord).length ∧
    ∃ i, ∃ hi : i < ([⟨"s1", "d1", 5, MoveStatus.Completed⟩,
        ⟨"s2", "d2", 9, MoveStatus.Undone⟩] : List FileMoveRecord).length,
      UndoLog.evict_oldest [⟨"s1", "d1", 5, MoveStatus.Completed⟩,
          ⟨"s2", "d2", 9, MoveStatus.Undone⟩] =
        ([⟨"s1", "d1", 5, MoveStatus.Completed⟩,
          ⟨"s2", "d2", 9, MoveStatus.Undone⟩] : List FileMoveRecord).eraseIdx i ∧
      ((∃ e ∈ ([⟨"s1", "d1", 5, MoveStatus.Completed⟩,
          ⟨"s2", "d2", 9, MoveStatus.Undone⟩] : List FileMoveRecord),
          e.status = MoveStatus.Undone) →
        (([⟨"s1", "d1", 5, MoveStatus.Completed⟩,
          ⟨"s2", "d2", 9, MoveStatus.Undone⟩] : List FileMoveRecord).get
            ⟨i, hi⟩).status = MoveStatus.Undone ∧
        ∀ e ∈ ([⟨"s1", "d1", 5, MoveStatus.Completed⟩,
            ⟨"s2", "d2", 9, MoveStatus.Undone⟩] : List FileMoveRecord),
          e.status = MoveStatus.Undone →
          (([⟨"s1", "d1", 5, MoveStatus.Completed⟩,
            ⟨"s2", "d2", 9, MoveStatus.Undone⟩] : List FileMoveRecord).get
              ⟨i, hi⟩).timestamp ≤ e.timestamp) ∧
      ((¬ ∃ e ∈ ([⟨"s1", "d1", 5, MoveStatus.Completed⟩,
          ⟨"s2", "d2", 9, MoveStatus.Undone⟩] : List FileMoveRecord),
          e.status = MoveStatus.Undone) →
        ∀ e ∈ ([⟨"s1", "d1", 5, MoveStatus.Completed⟩,
            ⟨"s2", "d2", 9, MoveStatus.Undone⟩] : List FileMoveRecord),
          (([⟨"s1", "d1", 5, MoveStatus.Completed⟩,
            ⟨"s2", "d2", 9, MoveStatus.Undone⟩] : List FileMoveRecord).get
              ⟨i, hi⟩).timestamp ≤ e.timestamp) :=
  undolog_evict_oldest_spec [⟨"s1", "d1", 5, MoveStatus.Completed⟩,
    ⟨"s2", "d2", 9, MoveStatus.Undone⟩] (by decide)

/-- C4. Age-based ledger cleanup: any non-Completed record whose age
reaches the bound is removed; the survivors form a sublist of the
age-filtered records, so removal happens only through the age/status
predicate or the subsequent capacity eviction; and when the filtered
records fit within max_entries (no capacity eviction), the result is
exactly the filter, so every Completed record survives regardless of
age. -/
theorem undolog_cleanup_spec (log : UndoLog)
    (current_time max_age_seconds : Nat)
    (hts : ∀ e ∈ log.entries, e.timestamp ≤ current_time)
    (hcur : current_time < 2 ^ 64) :
    (∀ e ∈ log.entries, e.status ≠ MoveStatus.Completed →
      max_age_seconds ≤ current_time - e.timestamp →
      e ∉ (log.cleanup_old_entries current_time max_age_seconds).entries) ∧
    (log.cleanup_old_entries current_time max_age_seconds).entries.Sublist
      (log.entries.filter (fun e =>
        u64sub current_time e.timestamp < max_age_seconds ||
          e.status == MoveStatus.Completed)) ∧
    ((log.entries.filter (fun e =>
        u64sub current_time e.timestamp < max_age_seconds ||
          e.status == MoveStatus.Completed)).length ≤ log.max_entries →
      (log.cleanup_old_entries current_time max_age_seconds).entries =
        log.entries.filter (fun e =>
          u64sub current_time e.timestamp < max_age_seconds ||
            e.status == MoveStatus.Completed) ∧
      ∀ e ∈ log.entries, e.status = MoveStatus.Completed →
        e ∈ (log.cleanup_old_entries current_time max_age_seconds).entries) := by
  have hrw : log.cleanup_old_entries current_time max_age_seconds =
      (if (log.entries.filter (fun e =>
          u64sub current_time e.timestamp < max_age_seconds ||
            e.status == MoveStatus.Completed)).length > log.max_entries then
        (⟨UndoLog.compact_log (log.entries.filter (fun e =>
            u64sub current_time e.timestamp < max_age_seconds ||
              e.status == MoveStatus.Completed)) log.max_entries,
          log.max_entries⟩ : UndoLog)
      else
        ⟨log.entries.filter (fun e =>
          u64sub current_time e.timestamp < max_age_seconds ||
            e.status == MoveStatus.Completed), log.max_entries⟩) := rfl
  have hsub : (log.cleanup_old_entries current_time max_age_seconds).entries.Sublist
      (log.entries.filter (fun e =>
        u64sub current_time e.timestamp < max_age_seconds ||
          e.status == MoveStatus.Completed)) := by
    rw [hrw]
    by_cases hgt : (log.entries.filter (fun e =>
        u64sub current_time e.timestamp < max_age_seconds ||
          e.status == MoveStatus.Completed)).length > log.max_entries
    · rw [if_pos hgt]
      exact evictLoop_sublist UndoLog.evict_oldest undolog_evict_oldest_sublist
        log.max_entries _ _
    · rw [if_neg hgt]
  refine ⟨?_, hsub, ?_⟩
  · intro e he hst hage hmem
    have hfil := List.mem_filter.mp (hsub.subset hmem)
    have hpred := hfil.2
    simp only [Bool.or_eq_true, decide_eq_true_eq, beq_iff_eq] at hpred
    rcases hpred with hyoung | hcompleted
    · rw [u64sub_of_le current_time e.timestamp (hts e he) hcur] at hyoung
      omega
    · exact hst hcompleted
  · intro hlen
    have hngt : ¬ (log.entries.filter (fun e =>
        u64sub current_time e.timestamp < max_age_seconds ||
          e.status == MoveStatus.Completed)).length > log.max_entries :=
      not_lt.mpr hlen
    constructor
    · rw [hrw, if_neg hngt]
    · intro e he hst
      rw [hrw, if_neg hngt]
      exact List.mem_filter.mpr ⟨he, by simp [hst]⟩

/-- Concrete ledger for the C4 witness: one Completed and one Undone
record, both 100 days old. -/
def c4log : UndoLog :=
  ⟨[⟨"s1", "d1", 0, MoveStatus.Completed⟩,
    ⟨"s2", "d2", 0, MoveStatus.Undone⟩], 1000⟩

/-- C4, witness: with a one-day age bound at time 8640000 (100 days),
the instantiated cleanup specification holds on c4log. -/
theorem undolog_cleanup_spec_witness :
    (∀ e ∈ c4log.entries, e.status ≠ MoveStatus.Completed →
      86400 ≤ 8640000 - e.timestamp →
      e ∉ (c4log.cleanup_old_entries 8640000 86400).entries) ∧
    (c4log.cleanup_old_entries 8640000 86400).entries.Sublist
      (c4log.entries.filter (fun e =>
        u64sub 8640000 e.timestamp < 86400 ||
          e.status == MoveStatus.Completed)) ∧
    ((c4log.entries.filter (fun e =>
        u64sub 8640000 e.timestamp < 86400 ||
          e.status == MoveStatus.Completed)).length ≤ c4log.max_entries →
      (c4log.cleanup_old_entries 8640000 86400).entries =
        c4log.entries.filter (fun e =>
          u64sub 8640000 e.timestamp < 86400 ||
            e.status == MoveStatus.Completed) ∧
      ∀ e ∈ c4log.entries, e.status = MoveStatus.Completed →
        e ∈ (c4log.cleanup_old_entries 8640000 86400).entries) :=
  undolog_cleanup_spec c4log 8640000 86400 (by decide) (by decide)

theorem markAsUndoneList_no_match (entries : List FileMoveRecord)
    (path : String)
    (hno : ∀ e ∈ entries,
      ¬(e.status = MoveStatus.Completed ∧ e.destination_path = path)) :
    markAsUndoneList entries path = entries := by
  induction entries with
  | nil => rfl
  | cons e rest ih =>
    rw [show markAsUndoneList (e :: rest) path =
      (if e.status == MoveStatus.Completed && e.destination_path == path then
        { e with status := MoveStatus.Undone } :: rest
      else e :: markAsUndoneList rest path) from rfl]
    rw [if_neg (fun hc => hno e (List.mem_cons_self e rest)
      (by simpa [Bool.and_eq_true, beq_iff_eq] using hc))]
    rw [ih (fun x hx => hno x (List.mem_cons_of_mem e hx))]

theorem markAsUndoneList_first_match (l₁ : List FileMoveRecord)
    (e : FileMoveRecord) (l₂ : List FileMoveRecord) (path : String)
    (hl₁ : ∀ x ∈ l₁,
      ¬(x.status = MoveStatus.Completed ∧ x.destination_path = path))
    (hst : e.status = MoveStatus.Completed)
    (hdst : e.destination_path = path) :
    markAsUndoneList (l₁ ++ e :: l₂) path =
      l₁ ++ { e with status := MoveStatus.Undone } :: l₂ := by
  induction l₁ with
  | nil =>
    rw [List.nil_append, List.nil_append]
    rw [show markAsUndoneList (e :: l₂) path =
      (if e.status == MoveStatus.Completed && e.destination_path == path then
        { e with status := MoveStatus.Undone } :: l₂
      else e :: markAsUndoneList l₂ path) from rfl]
    rw [if_pos (by simp [Bool.and_eq_true, beq_iff_eq, hst, hdst])]
  | cons x xs ih =>
    rw [List.cons_append, List.cons_append]
    rw [show markAsUndoneList (x :: (xs ++ e :: l₂)) path =
      (if x.status == MoveStatus.Completed && x.destination_path == path then
        { x with status := MoveStatus.Undone } :: (xs ++ e :: l₂)
      else x :: markAsUndoneList (xs ++ e :: l₂) path) from rfl]
    rw [if_neg (fun hc => hl₁ x (List.mem_cons_self x xs)
      (by simpa [Bool.and_eq_true, beq_iff_eq] using hc))]
    rw [ih (fun y hy => hl₁ y (List.mem_cons_of_mem x hy))]

/-- C6. Status transitions of ledger records: mark_as_undone is a no-op
when no Completed record has the given destination, and otherwise flips
exactly the first such record from Completed to Undone, leaving every
other record untouched; the recording operations only append one fresh
Completed or Failed record and possibly drop whole records via
eviction; cleanup and eviction only drop whole records.  In this
embedding the read-only queries (get_completed_moves,
get_directory_usage) are pure functions of the ledger and cannot change
any record.  Hence the status field of an existing record changes only
through mark_as_undone, and only from Completed to Undone. -/
theorem undolog_status_transitions (log : UndoLog)
    (path source destination : String)
    (now current_time max_age_seconds : Nat) :
    ((∀ e ∈ log.entries,
      ¬(e.status = MoveStatus.Completed ∧ e.destination_path = path)) →
      log.mark_as_undone path = log) ∧
    (∀ l₁ e l₂, log.entries = l₁ ++ e :: l₂ →
      (∀ x ∈ l₁,
        ¬(x.status = MoveStatus.Completed ∧ x.destination_path = path)) →
      e.status = MoveStatus.Completed → e.destination_path = path →
      (log.mark_as_undone path).entries =
        l₁ ++ { e with status := MoveStatus.Undone } :: l₂) ∧
    (log.record_move source destination now).entries.Sublist
      (log.entries ++ [⟨source, destination, now, MoveStatus.Completed⟩]) ∧
    (log.record_failed_move source destination now).entries.Sublist
      (log.entries ++ [⟨source, destination, now, MoveStatus.Failed⟩]) ∧
    (log.cleanup_old_entries current_time max_age_seconds).entries.Sublist
      log.entries ∧
    (UndoLog.evict_oldest log.entries).Sublist log.entries := by
  refine ⟨?_, ?_, ?_, ?_, ?_, undolog_evict_oldest_sublist log.entries⟩
  · intro hno
    have h := markAsUndoneList_no_match log.entries path hno
    cases log with
    | mk entries max_entries =>
      show (⟨markAsUndoneList entries path, max_entries⟩ : UndoLog) = _
      rw [h]
  · intro l₁ e l₂ hsplit hl₁ hst hdst
    show markAsUndoneList log.entries path = _
    rw [hsplit]
    exact markAsUndoneList_first_match l₁ e l₂ path hl₁ hst hdst
  · have hrw : log.record_move source destination now =
        (if (log.entries ++ [(⟨source, destination, now,
              MoveStatus.Completed⟩ : FileMoveRecord)]).length >
            log.max_entries then
          (⟨UndoLog.evict_oldest (log.entries ++ [(⟨source, destination, now,
              MoveStatus.Completed⟩ : FileMoveRecord)]),
            log.max_entries⟩ : UndoLog)
        else
          (⟨log.entries ++ [(⟨source, destination, now,
              MoveStatus.Completed⟩ : FileMoveRecord)],
            log.max_entries⟩ : UndoLog)) := rfl
    rw [hrw]
    by_cases hgt : (log.entries ++ [(⟨source, destination, now,
        MoveStatus.Completed⟩ : FileMoveRecord)]).length > log.max_entries
    · rw [if_pos hgt]
      exact undolog_evict_oldest_sublist _
    · rw [if_neg hgt]
  · have hrw : log.record_failed_move source destination now =
        (if (log.entries ++ [(⟨source, destination, now,
              MoveStatus.Failed⟩ : FileMoveRecord)]).length >
            log.max_entries then
          (⟨UndoLog.evict_oldest (log.entries ++ [(⟨source, destination, now,
              MoveStatus.Failed⟩ : FileMoveRecord)]),
            log.max_entries⟩ : UndoLog)
        else
          (⟨log.entries ++ [(⟨source, destination, now,
              MoveStatus.Failed⟩ : FileMoveRecord)],
            log.max_entries⟩ : UndoLog)) := rfl
    rw [hrw]
    by_cases hgt : (log.entries ++ [(⟨source, destination, now,
        MoveStatus.Failed⟩ : FileMoveRecord)]).length > log.max_entries
    · rw [if_pos hgt]
      exact undolog_evict_oldest_sublist _
    · rw [if_neg hgt]
  · rw [show log.cleanup_old_entries current_time max_age_seconds =
      (if (log.entries.filter (fun e =>
          u64sub current_time e.timestamp < max_age_seconds ||
            e.status == MoveStatus.Completed)).length > log.max_entries then
        (⟨UndoLog.compact_log (log.entries.filter (fun e =>
            u64sub current_time e.timestamp < max_age_seconds ||
              e.status == MoveStatus.Completed)) log.max_entries,
          log.max_entries⟩ : UndoLog)
      else
        ⟨log.entries.filter (fun e =>
          u64sub current_time e.timestamp < max_age_seconds ||
            e.status == MoveStatus.Completed), log.max_entries⟩) from rfl]
    by_cases hgt : (log.entries.filter (fun e =>
        u64sub current_time e.timestamp < max_age_seconds ||
          e.status == MoveStatus.Completed)).length > log.max_entries
    · rw [if_pos hgt]
      exact ((evictLoop_sublist UndoLog.evict_oldest
        undolog_evict_oldest_sublist log.max_entries _ _).trans
          (List.filter_sublist _))
    · rw [if_neg hgt]
      exact List.filter_sublist _

/-- Concrete ledger for the C6 witness. -/
def c6log : UndoLog :=
  ⟨[⟨"a", "b", 1, MoveStatus.Failed⟩,
    ⟨"s1", "d1", 2, MoveStatus.Completed⟩], 1000⟩

/-- C6, witness: the status-transition specification instantiated on a
concrete ledger. -/
theorem undolog_status_transitions_witness :
    ((∀ e ∈ c6log.entries,
      ¬(e.status = MoveStatus.Completed ∧ e.destination_path = "d1")) →
      c6log.mark_as_undone "d1" = c6log) ∧
    (∀ l₁ e l₂, c6log.entries = l₁ ++ e :: l₂ →
      (∀ x ∈ l₁,
        ¬(x.status = MoveStatus.Completed ∧ x.destination_path = "d1")) →
      e.status = MoveStatus.Completed → e.destination_path = "d1" →
      (c6log.mark_as_undone "d1").entries =
        l₁ ++ { e with status := MoveStatus.Undone } :: l₂) ∧
    (c6log.record_move "s2" "d2" 7).entries.Sublist
      (c6log.entries ++ [⟨"s2", "d2", 7, MoveStatus.Completed⟩]) ∧
    (c6log.record_failed_move "s2" "d2" 7).entries.Sublist
      (c6log.entries ++ [⟨"s2", "d2", 7, MoveStatus.Failed⟩]) ∧
    (c6log.cleanup_old_entries 100 10).entries.Sublist c6log.entries ∧
    (UndoLog.evict_oldest c6log.entries).Sublist c6log.entries :=
  undolog_status_transitions c6log "d1" "s2" "d2" 7 100 10

/-- Grouping step of find_duplicates: hash_map.entry(hash).or_default().push(path)
on a HashMap from content hashes to path groups, modelled on an
association list; hash values are abstracted as natural numbers. -/
def groupInsert (m : List (Nat × List String)) (h : Nat) (path : String) :
    List (Nat × List String) :=
  match m with
  | [] => [(h, [path])]
  | q :: rest =>
    if q.1 = h then (q.1, q.2 ++ [path]) :: rest
    else q :: groupInsert rest h path

/-- The find_duplicates function of
src/files/duplicate/duplicate_detector.rs: hash every path through the
hash oracle (compute_file_hash; failures are skipped), group the paths
by hash, and keep only the groups with more than one member. -/
def find_duplicates (hash : String → Option Nat) (paths : List String) :
    List (List String) :=
  let hash_map := paths.foldl (fun m path =>
    match hash path with
    | some h => groupInsert m h path
    | none => m) []
  (hash_map.map Prod.snd).filter (fun files => files.length > 1)

theorem groupInsert_inv (m : List (Nat × List String)) (h : Nat)
    (path : String) (hash : String → Option Nat)
    (hm : ∀ pr ∈ m, ∀ p ∈ pr.2, hash p = some pr.1)
    (hpath : hash path = some h) :
    ∀ pr ∈ groupInsert m h path, ∀ p ∈ pr.2, hash p = some pr.1 := by
  induction m with
  | nil =>
    intro pr hpr p hp
    rw [show groupInsert [] h path = [(h, [path])] from rfl] at hpr
    rcases List.mem_singleton.mp hpr with rfl
    rcases List.mem_singleton.mp hp with rfl
    exact hpath
  | cons q rest ih =>
    intro pr hpr p hp
    rw [show groupInsert (q :: rest) h path =
      (if q.1 = h then (q.1, q.2 ++ [path]) :: rest
       else q :: groupInsert rest h path) from rfl] at hpr
    by_cases hq : q.1 = h
    · rw [if_pos hq] at hpr
      rcases List.mem_cons.mp hpr with rfl | hpr₂
      · rcases List.mem_append.mp hp with hp₂ | hp₂
        · exact hm q (List.mem_cons_self q rest) p hp₂
        · rcases List.mem_singleton.mp hp₂ with rfl
          rw [hpath, hq]
      · exact hm pr (List.mem_cons_of_mem q hpr₂) p hp
    · rw [if_neg hq] at hpr
      rcases List.mem_cons.mp hpr with rfl | hpr₂
      · exact hm pr (List.mem_cons_self pr rest) p hp
      · exact ih (fun x hx => hm x (List.mem_cons_of_mem q hx)) pr hpr₂ p hp

theorem findDuplicates_fold_inv (hash : String → Option Nat)
    (paths : List String) :
    ∀ m, (∀ pr ∈ m, ∀ p ∈ pr.2, hash p = some pr.1) →
      ∀ pr ∈ paths.foldl (fun m path =>
          match hash path with
          | some h => groupInsert m h path
          | none => m) m,
        ∀ p ∈ pr.2, hash p = some pr.1 := by
  induction paths with
  | nil => exact fun m hm => hm
  | cons q qs ih =>
    intro m hm
    rw [List.foldl_cons]
    cases hq : hash q with
    | none => exact ih m hm
    | some h => exact ih _ (groupInsert_inv m h q hash hm hq)

/-- C7. Every group returned by find_duplicates has at least two
members, and all its members hashed successfully to one common hash
value; consequently a path whose hash computation fails appears in no
group, and paths with distinct hashes never share a group. -/
theorem find_duplicates_spec (hash : String → Option Nat)
    (paths : List String) :
    ∀ g ∈ find_duplicates hash paths,
      2 ≤ g.length ∧ (∃ h, ∀ p ∈ g, hash p = some h) ∧
        ∀ q, hash q = none → q ∉ g := by
  intro g hg
  have hfil := List.mem_filter.mp hg
  obtain ⟨pr, hpr, hsnd⟩ := List.mem_map.mp hfil.1
  have hinv := findDuplicates_fold_inv hash paths []
    (fun pr hpr => absurd hpr (List.not_mem_nil pr)) pr hpr
  have hlen : 1 < g.length := by simpa using hfil.2
  refine ⟨hlen, ⟨pr.1, fun p hp => hinv p (hsnd ▸ hp)⟩, ?_⟩
  intro q hq hqg
  have := hinv q (hsnd ▸ hqg)
  rw [hq] at this
  cases this

/-- Concrete hash oracle for the C7 witness: two identical files, one
different file, one unreadable file. -/
def c7hash (p : String) : Option Nat :=
  if p = "bad" then none else if p = "c" then some 2 else some 1

/-- C7, witness: the duplicate-grouping specification instantiated on
the concrete group returned for four sample paths. -/
theorem find_duplicates_spec_witness :
    2 ≤ (["a", "b"] : List String).length ∧
      (∃ h, ∀ p ∈ (["a", "b"] : List String), c7hash p = some h) ∧
      ∀ q, c7hash q = none → q ∉ (["a", "b"] : List String) :=
  find_duplicates_spec c7hash ["a", "b", "c", "bad"] ["a", "b"] (by decide)

/-- Cache::with_max_entries. -/
def Cache.with_max_entries (max_entries : Nat) : Cache :=
  ⟨[], max_entries⟩

/-- Cache::new: an empty cache with the default capacity. -/
def Cache.new : Cache :=
  Cache.with_max_entries 1000

/-- UndoLog::with_max_entries. -/
def UndoLog.with_max_entries (max_entries : Nat) : UndoLog :=
  ⟨[], max_entries⟩

/-- UndoLog::new: an empty ledger with the default capacity. -/
def UndoLog.new : UndoLog :=
  UndoLog.with_max_entries 1000

/-- Cache::load_or_create: the existence check, the file read and the
JSON parse are abstracted as parameters; every failure path falls back
to a fresh cache. -/
def Cache.load_or_create (path_exists : Bool) (read_result : Option String)
    (parse : String → Option Cache) : Cache :=
  if path_exists then
    match read_result with
    | some content =>
      match parse content with
      | some cache => cache
      | none => Cache.new
    | none => Cache.new
  else Cache.new

/-- UndoLog::load_or_create, with the same abstraction. -/
def UndoLog.load_or_create (path_exists : Bool) (read_result : Option String)
    (parse : String → Option UndoLog) : UndoLog :=
  if path_exists then
    match read_result with
    | some content =>
      match parse content with
      | some log => log
      | none => UndoLog.new
    | none => UndoLog.new
  else UndoLog.new

/-- C8. Loading the cache or the ledger is total and never propagates
an error: whatever the read and parse oracles do, the result is either
the successfully parsed store or a freshly created empty store; each
failure mode (absent file, unreadable file, unparseable content) gives
the empty store, and a successful parse gives exactly the parsed
store. -/
theorem load_or_create_recovery (path_exists : Bool)
    (read_result : Option String) (parseC : String → Option Cache)
    (parseU : String → Option UndoLog) :
    ((Cache.load_or_create path_exists read_result parseC = Cache.new ∨
      ∃ s c, read_result = some s ∧ parseC s = some c ∧
        Cache.load_or_create path_exists read_result parseC = c) ∧
     (path_exists = false →
       Cache.load_or_create path_exists read_result parseC = Cache.new) ∧
     (read_result = none →
       Cache.load_or_create path_exists read_result parseC = Cache.new) ∧
     (∀ s, read_result = some s → parseC s = none →
       Cache.load_or_create path_exists read_result parseC = Cache.new) ∧
     (∀ s c, path_exists = true → read_result = some s → parseC s = some c →
       Cache.load_or_create path_exists read_result parseC = c) ∧
     Cache.new.entries = []) ∧
    ((UndoLog.load_or_create path_exists read_result parseU = UndoLog.new ∨
      ∃ s l, read_result = some s ∧ parseU s = some l ∧
        UndoLog.load_or_create path_exists read_result parseU = l) ∧
     (path_exists = false →
       UndoLog.load_or_create path_exists read_result parseU = UndoLog.new) ∧
     (read_result = none →
       UndoLog.load_or_create path_exists read_result parseU = UndoLog.new) ∧
     (∀ s, read_result = some s → parseU s = none →
       UndoLog.load_or_create path_exists read_result parseU = UndoLog.new) ∧
     (∀ s l, path_exists = true → read_result = some s → parseU s = some l →
       UndoLog.load_or_create path_exists read_result parseU = l) ∧
     UndoLog.new.entries = []) := by
  cases path_exists with
  | false =>
    refine ⟨⟨Or.inl rfl, fun _ => rfl, fun _ => rfl, fun s hs _ => rfl,
        fun s c hpe => absurd hpe (by simp), rfl⟩,
      Or.inl rfl, fun _ => rfl, fun _ => rfl, fun s hs _ => rfl,
        fun s l hpe => absurd hpe (by simp), rfl⟩
  | true =>
    cases read_result with
    | none =>
      refine ⟨⟨Or.inl rfl, fun hpe => absurd hpe (by simp), fun _ => rfl,
          fun s hs => absurd hs (by simp), fun s c _ hs => absurd hs (by simp),
          rfl⟩,
        Or.inl rfl, fun hpe => absurd hpe (by simp), fun _ => rfl,
          fun s hs => absurd hs (by simp), fun s l _ hs => absurd hs (by simp),
          rfl⟩
    | some content =>
      constructor
      · cases hp : parseC content with
        | none =>
          refine ⟨Or.inl (by simp [Cache.load_or_create, hp]),
            fun hpe => absurd hpe (by simp), fun hs => absurd hs (by simp),
            ?_, ?_, rfl⟩
          · intro s hs _
            cases Option.some.inj hs
            simp [Cache.load_or_create, hp]
          · intro s c _ hs hps
            cases Option.some.inj hs
            rw [hp] at hps
            cases hps
        | some cache =>
          refine ⟨Or.inr ⟨content, cache, rfl, hp,
              by simp [Cache.load_or_create, hp]⟩,
            fun hpe => absurd hpe (by simp), fun hs => absurd hs (by simp),
            ?_, ?_, rfl⟩
          · intro s hs hps
            cases Option.some.inj hs
            rw [hp] at hps
            cases hps
          · intro s c _ hs hps
            cases Option.some.inj hs
            rw [hp] at hps
            cases Option.some.inj hps
            simp [Cache.load_or_create, hp]
      · cases hp : parseU content with
        | none =>
          refine ⟨Or.inl (by simp [UndoLog.load_or_create, hp]),
            fun hpe => absurd hpe (by simp), fun hs => absurd hs (by simp),
            ?_, ?_, rfl⟩
          · intro s hs _
            cases Option.some.inj hs
            simp [UndoLog.load_or_create, hp]
          · intro s l _ hs hps
            cases Option.some.inj hs
            rw [hp] at hps
            cases hps
        | some log =>
          refine ⟨Or.inr ⟨content, log, rfl, hp,
              by simp [UndoLog.load_or_create, hp]⟩,
            fun hpe => absurd hpe (by simp), fun hs => absurd hs (by simp),
            ?_, ?_, rfl⟩
          · intro s hs hps
            cases Option.some.inj hs
            rw [hp] at hps
            cases hps
          · intro s l _ hs hps
            cases Option.some.inj hs
            rw [hp] at hps
            cases Option.some.inj hps
            simp [UndoLog.load_or_create, hp]

/-- C8, witness: loading garbage content that fails to parse yields the
empty stores, instantiating the recovery specification. -/
theorem load_or_create_recovery_witness :
    ((Cache.load_or_create true (some "garbage") (fun _ => none) = Cache.new ∨
      ∃ s c, (some "garbage" : Option String) = some s ∧
        (fun _ => (none : Option Cache)) s = some c ∧
        Cache.load_or_create true (some "garbage") (fun _ => none) = c) ∧
     (true = false →
       Cache.load_or_create true (some "garbage") (fun _ => none) = Cache.new) ∧
     ((some "garbage" : Option String) = none →
       Cache.load_or_create true (some "garbage") (fun _ => none) = Cache.new) ∧
     (∀ s, (some "garbage" : Option String) = some s →
       (fun _ => (none : Option Cache)) s = none →
       Cache.load_or_create true (some "garbage") (fun _ => none) = Cache.new) ∧
     (∀ s c, true = true → (some "garbage" : Option String) = some s →
       (fun _ => (none : Option Cache)) s = some c →
       Cache.load_or_create true (some "garbage") (fun _ => none) = c) ∧
     Cache.new.entries = []) ∧
    ((UndoLog.load_or_create true (some "garbage") (fun _ => none) =
        UndoLog.new ∨
      ∃ s l, (some "garbage" : Option String) = some s ∧
        (fun _ => (none : Option UndoLog)) s = some l ∧
        UndoLog.load_or_create true (some "garbage") (fun _ => none) = l) ∧
     (true = false →
       UndoLog.load_or_create true (some "garbage") (fun _ => none) =
         UndoLog.new) ∧
     ((some "garbage" : Option String) = none →
       UndoLog.load_or_create true (some "garbage") (fun _ => none) =
         UndoLog.new) ∧
     (∀ s, (some "garbage" : Option String) = some s →
       (fun _ => (none : Option UndoLog)) s = none →
       UndoLog.load_or_create true (some "garbage") (fun _ => none) =
         UndoLog.new) ∧
     (∀ s l, true = true → (some "garbage" : Option String) = some s →
       (fun _ => (none : Option UndoLog)) s = some l →
       UndoLog.load_or_create true (some "garbage") (fun _ => none) = l) ∧
     UndoLog.new.entries = []) :=
  load_or_create_recovery true (some "garbage") (fun _ => none) (fun _ => none)

theorem mapRemove_sublist {K V : Type} [DecidableEq K]
    (l : List (K × V)) (k : K) : (mapRemove l k).Sublist l := by
  induction l with
  | nil => exact List.Sublist.refl []
  | cons p rest ih =>
    rw [show mapRemove (p :: rest) k =
      (if p.1 = k then rest else p :: mapRemove rest k) from rfl]
    by_cases hp : p.1 = k
    · rw [if_pos hp]
      exact List.sublist_cons_self p rest
    · rw [if_neg hp]
      exact List.Sublist.cons₂ p ih

theorem cache_evict_oldest_sublist (entries : List (List Char × CacheEntry)) :
    (Cache.evict_oldest entries).Sublist entries := by
  unfold Cache.evict_oldest
  cases rustMinBy (fun p => p.2.timestamp) entries with
  | some oldest => exact mapRemove_sublist entries oldest.1
  | none => exact List.Sublist.refl entries

theorem cache_cleanup_mem (c : Cache) (current_time max_age_seconds : Nat) :
    ∀ q ∈ (c.cleanup_old_entries current_time max_age_seconds).entries,
      q ∈ c.entries ∧ u64sub current_time q.2.timestamp < max_age_seconds := by
  have hrw : c.cleanup_old_entries current_time max_age_seconds =
      (if (c.entries.filter (fun p =>
          u64sub current_time p.2.timestamp < max_age_seconds)).length >
          c.max_entries then
        (⟨Cache.compact_cache (c.entries.filter (fun p =>
            u64sub current_time p.2.timestamp < max_age_seconds))
          c.max_entries, c.max_entries⟩ : Cache)
      else
        ⟨c.entries.filter (fun p =>
          u64sub current_time p.2.timestamp < max_age_seconds),
          c.max_entries⟩) := rfl
  have hsub : (c.cleanup_old_entries current_time max_age_seconds).entries.Sublist
      (c.entries.filter (fun p =>
        u64sub current_time p.2.timestamp < max_age_seconds)) := by
    rw [hrw]
    by_cases hgt : (c.entries.filter (fun p =>
        u64sub current_time p.2.timestamp < max_age_seconds)).length >
        c.max_entries
    · rw [if_pos hgt]
      exact evictLoop_sublist Cache.evict_oldest cache_evict_oldest_sublist
        c.max_entries _ _
    · rw [if_neg hgt]
  intro q hq
  have hfil := List.mem_filter.mp (hsub.subset hq)
  exact ⟨hfil.1, by simpa using hfil.2⟩

theorem undolog_cleanup_mem (log : UndoLog)
    (current_time max_age_seconds : Nat) :
    ∀ r ∈ (log.cleanup_old_entries current_time max_age_seconds).entries,
      r ∈ log.entries ∧ (u64sub current_time r.timestamp < max_age_seconds ∨
        r.status = MoveStatus.Completed) := by
  have hrw : log.cleanup_old_entries current_time max_age_seconds =
      (if (log.entries.filter (fun e =>
          u64sub current_time e.timestamp < max_age_seconds ||
            e.status == MoveStatus.Completed)).length > log.max_entries then
        (⟨UndoLog.compact_log (log.entries.filter (fun e =>
            u64sub current_time e.timestamp < max_age_seconds ||
              e.status == MoveStatus.Completed)) log.max_entries,
          log.max_entries⟩ : UndoLog)
      else
        ⟨log.entries.filter (fun e =>
          u64sub current_time e.timestamp < max_age_seconds ||
            e.status == MoveStatus.Completed), log.max_entries⟩) := rfl
  have hsub : (log.cleanup_old_entries current_time max_age_seconds).entries.Sublist
      (log.entries.filter (fun e =>
        u64sub current_time e.timestamp < max_age_seconds ||
          e.status == MoveStatus.Completed)) := by
    rw [hrw]
    by_cases hgt : (log.entries.filter (fun e =>
        u64sub current_time e.timestamp < max_age_seconds ||
          e.status == MoveStatus.Completed)).length > log.max_entries
    · rw [if_pos hgt]
      exact evictLoop_sublist UndoLog.evict_oldest
        undolog_evict_oldest_sublist log.max_entries _ _
    · rw [if_neg hgt]
  intro r hr
  have hfil := List.mem_filter.mp (hsub.subset hr)
  refine ⟨hfil.1, ?_⟩
  have hpred := hfil.2
  simp only [Bool.or_eq_true, decide_eq_true_eq, beq_iff_eq] at hpred
  exact hpred

theorem u64sub_of_gt (a b : Nat) (hab : a < b) (hb : b < 2 ^ 64) :
    u64sub a b = 2 ^ 64 - (b - a) := by
  unfold u64sub
  rw [Nat.mod_eq_of_lt (lt_trans hab hb), Nat.mod_eq_of_lt hb]
  have h₁ : 2 ^ 64 + a - b = 2 ^ 64 - (b - a) := by omega
  rw [h₁]
  exact Nat.mod_eq_of_lt (by omega)

/-- C9, counterexample. A parseable state can carry the timestamp
18446744073709551615; at current time 5 with max_age_seconds = 10 (far
below 2^63) the wrapped age is 6, so the future-dated entry is retained
by both cleanups although the claim demands its removal. -/
theorem wrap_cleanup_counterexample :
    5 < 2 ^ 64 - 1 ∧ 10 < 2 ^ 63 ∧
    (['k'], (⟨⟨[]⟩, 2 ^ 64 - 1, []⟩ : CacheEntry)) ∈
      ((Cache.mk [(['k'], ⟨⟨[]⟩, 2 ^ 64 - 1, []⟩)] 1000).cleanup_old_entries
        5 10).entries ∧
    (⟨"s", "d", 2 ^ 64 - 1, MoveStatus.Undone⟩ : FileMoveRecord) ∈
      ((UndoLog.mk [⟨"s", "d", 2 ^ 64 - 1, MoveStatus.Undone⟩]
        1000).cleanup_old_entries 5 10).entries := by
  decide

/-- C9. Amended wrapping behavior: the age computation is the wrapping
u64 subtraction, so a future-dated entry looks extremely old and is
removed whenever its timestamp exceeds the current time by at most
2^64 - max_age_seconds (which covers every realistic future timestamp);
the cache removes such entries unconditionally, the ledger removes them
unless their status is Completed.  Entries even further in the future
wrap back under the age bound and are retained, which is what refutes
the unrestricted claim. -/
theorem wrap_cleanup_amended (current_time max_age_seconds : Nat)
    (c : Cache) (log : UndoLog) (k : List Char) (e : CacheEntry)
    (r : FileMoveRecord)
    (hmax : max_age_seconds < 2 ^ 63)
    (he1 : current_time < e.timestamp) (he2 : e.timestamp < 2 ^ 64)
    (he3 : e.timestamp - current_time ≤ 2 ^ 64 - max_age_seconds)
    (hr1 : current_time < r.timestamp) (hr2 : r.timestamp < 2 ^ 64)
    (hr3 : r.timestamp - current_time ≤ 2 ^ 64 - max_age_seconds)
    (hrs : r.status ≠ MoveStatus.Completed) :
    (k, e) ∉ (c.cleanup_old_entries current_time max_age_seconds).entries ∧
    r ∉ (log.cleanup_old_entries current_time max_age_seconds).entries := by
  constructor
  · intro hmem
    have hlt := (cache_cleanup_mem c current_time max_age_seconds _ hmem).2
    rw [show ((k, e) : List Char × CacheEntry).2 = e from rfl] at hlt
    rw [u64sub_of_gt current_time e.timestamp he1 he2] at hlt
    omega
  · intro hmem
    have hpred := (undolog_cleanup_mem log current_time max_age_seconds
      r hmem).2
    rcases hpred with hlt | hcompleted
    · rw [u64sub_of_gt current_time r.timestamp hr1 hr2] at hlt
      omega
    · exact hrs hcompleted

/-- C9, witness: a concrete moderately future-dated entry (timestamp
1000 at current time 5) is removed from both stores. -/
theorem wrap_cleanup_amended_witness :
    (['k'], (⟨⟨[]⟩, 1000, []⟩ : CacheEntry)) ∉
      ((Cache.mk [(['k'], ⟨⟨[]⟩, 1000, []⟩)] 1000).cleanup_old_entries
        5 10).entries ∧
    (⟨"s", "d", 1000, MoveStatus.Undone⟩ : FileMoveRecord) ∉
      ((UndoLog.mk [⟨"s", "d", 1000, MoveStatus.Undone⟩]
        1000).cleanup_old_entries 5 10).entries :=
  wrap_cleanup_amended 5 10 (Cache.mk [(['k'], ⟨⟨[]⟩, 1000, []⟩)] 1000)
    (UndoLog.mk [⟨"s", "d", 1000, MoveStatus.Undone⟩] 1000) ['k']
    ⟨⟨[]⟩, 1000, []⟩ ⟨"s", "d", 1000, MoveStatus.Undone⟩
    (by decide) (by decide) (by decide) (by decide) (by decide) (by decide)
    (by decide) (by decide)

theorem evictLoop_length_le {α : Type} (evict : List α → List α)
    (max_entries : Nat)
    (hshrink : ∀ es : List α, max_entries < es.length →
      (evict es).length < es.length) :
    ∀ n es, es.length ≤ n + max_entries →
      (evictLoop evict max_entries n es).length ≤ max_entries := by
  intro n
  induction n with
  | zero =>
    intro es hlen
    simpa [evictLoop] using hlen
  | succ n ih =>
    intro es hlen
    rw [show evictLoop evict max_entries (n + 1) es =
      (if es.length > max_entries then evictLoop evict max_entries n (evict es)
       else es) from rfl]
    by_cases hgt : es.length > max_entries
    · rw [if_pos hgt]
      exact ih (evict es) (by have := hshrink es hgt; omega)
    · rw [if_neg hgt]
      omega

theorem undolog_evict_oldest_length (entries : List FileMoveRecord)
    (h : entries ≠ []) :
    (UndoLog.evict_oldest entries).length + 1 = entries.length := by
  have hrw : UndoLog.evict_oldest entries =
      match rustMinBy (fun p => p.2.timestamp)
          (entries.enum.filter (fun p => p.2.status == MoveStatus.Undone)) with
      | some oldest => entries.eraseIdx oldest.1
      | none =>
        match rustMinBy (fun p => p.2.timestamp) entries.enum with
        | some oldest => entries.eraseIdx oldest.1
        | none => entries := rfl
  rw [hrw]
  cases hmin : rustMinBy (fun p => p.2.timestamp)
      (entries.enum.filter (fun p => p.2.status == MoveStatus.Undone)) with
  | some oldest =>
    have hmemF := rustMinBy_mem _ _ _ hmin
    have hget : entries.get? oldest.1 = some oldest.2 :=
      List.mem_enum_iff_get?.mp (List.mem_filter.mp hmemF).1
    obtain ⟨hi, _⟩ := List.get?_eq_some.mp hget
    exact List.length_eraseIdx_add_one hi
  | none =>
    cases hmin2 : rustMinBy (fun p => p.2.timestamp) entries.enum with
    | none =>
      exfalso
      have henil := rustMinBy_none _ _ hmin2
      have hlen := congrArg List.length henil
      rw [List.enum_length] at hlen
      exact h (List.length_eq_zero.mp hlen)
    | some oldest =>
      have hmemE := rustMinBy_mem _ _ _ hmin2
      have hget : entries.get? oldest.1 = some oldest.2 :=
        List.mem_enum_iff_get?.mp hmemE
      obtain ⟨hi, _⟩ := List.get?_eq_some.mp hget
      exact List.length_eraseIdx_add_one hi

/-- Adequacy of the compaction fuel for the cache: the loop always
reaches the capacity bound, exactly like the Rust while loop. -/
theorem cache_compact_length (entries : List (List Char × CacheEntry))
    (max_entries : Nat) :
    (Cache.compact_cache entries max_entries).length ≤ max_entries := by
  apply evictLoop_length_le Cache.evict_oldest max_entries
  · intro es hgt
    have hne : es ≠ [] := by
      intro hnil
      rw [hnil] at hgt
      simp at hgt
    have := cache_evict_oldest_length es hne
    omega
  · omega

/-- Adequacy of the compaction fuel for the ledger. -/
theorem undolog_compact_length (entries : List FileMoveRecord)
    (max_entries : Nat) :
    (UndoLog.compact_log entries max_entries).length ≤ max_entries := by
  apply evictLoop_length_le UndoLog.evict_oldest max_entries
  · intro es hgt
    have hne : es ≠ [] := by
      intro hnil
      rw [hnil] at hgt
      simp at hgt
    have := undolog_evict_oldest_length es hne
    omega
  · omega
